import Mathlib

/-! Lexical environments of the monkey interpreter.

A shallow embedding of `object/environment.go`: scopes live in a heap and are
addressed by reference, exactly as `*Environment` values are in the source, so
that aliasing between a scope and the scopes enclosing it is part of the model.
-/

namespace Monkey

/-- Modelled from the spec: the declaration of `Object` (object.go) is absent
from the sources at hand; the variant kinds are those of the data model
(Integer, Boolean, String, Null, Function, ReturnValue, Error). A function body
is an external syntax tree and is represented by an identifier, and the closure
environment is a reference (an address of the heap below). `nil` is the zero value of the Go interface type,
which is what a failed map lookup yields. -/
inductive Object where
  | nil
  | Integer (Value : Int)
  | Boolean (Value : Bool)
  | String (Value : String)
  | Null
  | Function (Parameters : List String) (Body : Nat) (Env : Nat)
  | ReturnValue (Value : Object)
  | Error (Message : String)
deriving DecidableEq, Repr

/-- The `map[string]Object` of a scope: `none` means the key is absent. -/
abbrev Store := String → Option Object

/-- The statement `store[name] = val`. -/
def Store.assign (s : Store) (name : String) (val : Object) : Store :=
  fun k => if k = name then some val else s k

/-- The two-result map read `obj, ok := store[name]`. -/
def Store.lookup (s : Store) (name : String) : Object × Bool :=
  match s name with
  | some obj => (obj, true)
  | none => (Object.nil, false)

/-- The struct `Environment`: a local store and a nilable pointer to the
enclosing scope. A pointer `*Environment` is the address of a heap cell. -/
structure Environment where
  store : Store
  outer : Option Nat

/-- The heap of allocated scopes; a reference is an index into it. -/
abbrev Heap := List Environment

/-- Allocation of a fresh root scope: `NewEnvironment()`. -/
def NewEnvironment (h : Heap) : Heap × Nat :=
  (h ++ [{ store := fun _ => none, outer := none }], h.length)

/-- The recursion of `Get`, bounded by `fuel` nested calls. `none` stands for a
run that did not return: fuel exhausted, or a dereference of a pointer that
addresses nothing. -/
def GetAux : Nat → Heap → Nat → String → Option (Object × Bool)
  | 0, _, _, _ => none
  | fuel + 1, h, e, name =>
    match h[e]? with
    | none => none
    | some env =>
      let (obj, ok) := env.store.lookup name
      if !ok && env.outer ≠ none then
        match env.outer with
        | some o => GetAux fuel h o name
        | none => some (obj, ok)
      else
        some (obj, ok)

/-- The method `Get`: every scope of the heap may be visited once. -/
def Get (h : Heap) (e : Nat) (name : String) : Option (Object × Bool) :=
  GetAux h.length h e name

/-- The method `Upsert`. -/
def Upsert (h : Heap) (e : Nat) (name : String) (val : Object) : Option (Heap × Object) :=
  match h[e]? with
  | none => none
  | some env => some (h.set e { env with store := env.store.assign name val }, val)

/-- The method `Set`. -/
def Set (h : Heap) (e : Nat) (name : String) (val : Object) : Option (Heap × Object) :=
  match h[e]? with
  | none => none
  | some env =>
    if (env.store.lookup name).2 then
      some (h, Object.Error ("Identifier '" ++ name ++ "' has already been declared"))
    else
      some (h.set e { env with store := env.store.assign name val }, val)

/-- The method `Update`. -/
def Update (h : Heap) (e : Nat) (name : String) (val : Object) : Option (Heap × Object) :=
  match h[e]? with
  | none => none
  | some env =>
    if !(env.store.lookup name).2 then
      some (h, Object.Error (name ++ " is not defined"))
    else
      some (h.set e { env with store := env.store.assign name val }, val)

/-- The constructor `NewEnclosedEnvironment(outer)`. -/
def NewEnclosedEnvironment (h : Heap) (outer : Option Nat) : Heap × Nat :=
  let (h1, env) := NewEnvironment h
  match h1[env]? with
  | none => (h1, env)
  | some cell => (h1.set env { cell with outer := outer }, env)

/-- Every `outer` pointer of the heap addresses a scope allocated earlier. -/
def WellFormed (h : Heap) : Prop :=
  ∀ (e : Nat) (env : Environment) (o : Nat), h[e]? = some env → env.outer = some o → o < e

/-- The chain of scopes seen from `e`: the local scope, its outer, and so on up
to a root. -/
inductive IsChain (h : Heap) : Nat → List Environment → Prop where
  | root (e : Nat) (env : Environment) :
      h[e]? = some env → env.outer = none → IsChain h e [env]
  | link (e o : Nat) (env : Environment) (rest : List Environment) :
      h[e]? = some env → env.outer = some o → IsChain h o rest → IsChain h e (env :: rest)

/-- The result of reading `name` through a chain of scopes listed innermost
first: the binding of the first scope that has one. -/
def lookupChain : List Environment → String → Object × Bool
  | [], _ => (Object.nil, false)
  | env :: rest, name =>
    match env.store name with
    | some obj => (obj, true)
    | none => lookupChain rest name

/-- A decision procedure for `WellFormed`: checks every cell of the heap. -/
def wellFormedCheck (h : Heap) : Bool :=
  (List.range h.length).all fun e =>
    match h[e]? with
    | none => true
    | some env =>
      match env.outer with
      | none => true
      | some o => decide (o < e)

/-- A root scope binding `x` to 1. -/
def sampleRoot : Environment :=
  { store := fun k => if k = "x" then some (Object.Integer 1) else none, outer := none }

/-- A scope enclosed in the scope at address 0, binding `y` to 2. -/
def sampleInner : Environment :=
  { store := fun k => if k = "y" then some (Object.Integer 2) else none, outer := some 0 }

/-- A scope enclosed in the scope at address 0, binding `x` to 3. -/
def sampleShadow : Environment :=
  { store := fun k => if k = "x" then some (Object.Integer 3) else none, outer := some 0 }

/-- A heap of three scopes: a root and two scopes enclosed in it. -/
def sampleHeap : Heap := [sampleRoot, sampleInner, sampleShadow]

/-- The calls `Update(name, v1)`, ..., `Update(name, vn)` made in order on the
scope `e`; yields the final heap and the objects returned, in order. -/
def updateEach (h : Heap) (e : Nat) (name : String) : List Object → Option (Heap × List Object)
  | [] => some (h, [])
  | v :: vs =>
    match Update h e name v with
    | none => none
    | some (h1, r) =>
      match updateEach h1 e name vs with
      | none => none
      | some (h2, rs) => some (h2, r :: rs)

/-- The calls `Set(name_1, val_1)`, ..., `Set(name_n, val_n)` made in order on
the scope `e`; yields the final heap and the objects returned, in order. -/
def setEach (h : Heap) (e : Nat) : List (String × Object) → Option (Heap × List Object)
  | [] => some (h, [])
  | (name, val) :: rest =>
    match Set h e name val with
    | none => none
    | some (h1, r) =>
      match setEach h1 e rest with
      | none => none
      | some (h2, rs) => some (h2, r :: rs)

/-- The local store after the assignments `store[name_i] = val_i` made in
order. -/
def Store.assignEach (s : Store) (binds : List (String × Object)) : Store :=
  binds.foldl (fun t p => t.assign p.1 p.2) s

/-- The scope `o` encloses the scope `e`: it is reached from `e` by following
`outer` pointers, one or more times. -/
inductive Enclosing (h : Heap) : Nat → Nat → Prop where
  | outer (e o : Nat) (env : Environment) :
      h[e]? = some env → env.outer = some o → Enclosing h e o
  | further (e o p : Nat) (env : Environment) :
      h[e]? = some env → env.outer = some o → Enclosing h o p → Enclosing h e p

/-- What a write of the name `n` in the scope `e`, leading from heap `h` to heap
`h2`, must leave alone: the lookups from `e` of every other name, and every
lookup from a scope enclosing `e`. -/
def WriteFrame (h h2 : Heap) (e : Nat) (n : String) : Prop :=
  (∀ m, m ≠ n → Get h2 e m = Get h e m) ∧
  (∀ o, Enclosing h e o → ∀ m, Get h2 o m = Get h o m)

/-- A call of the environment interface, as a client of the package can make
it. -/
inductive Op where
  | newEnvironment
  | newEnclosed (outer : Option Nat)
  | set (e : Nat) (name : String) (val : Object)
  | update (e : Nat) (name : String) (val : Object)
  | upsert (e : Nat) (name : String) (val : Object)

/-- The heap after one call. A client holds no pointer other than nil and the
pointers the constructors returned, so a call naming an address that is not
allocated cannot be made: it yields `none`. -/
def step (h : Heap) : Op → Option Heap
  | Op.newEnvironment => some (NewEnvironment h).1
  | Op.newEnclosed none => some (NewEnclosedEnvironment h none).1
  | Op.newEnclosed (some o) =>
    if o < h.length then some (NewEnclosedEnvironment h (some o)).1 else none
  | Op.set e name val => (Set h e name val).map Prod.fst
  | Op.update e name val => (Update h e name val).map Prod.fst
  | Op.upsert e name val => (Upsert h e name val).map Prod.fst

/-- The heap after a sequence of calls made in order. -/
def run : Heap → List Op → Option Heap
  | h, [] => some h
  | h, op :: ops =>
    match step h op with
    | none => none
    | some h1 => run h1 ops

/-- A short session: a root, a scope enclosed in it, a declaration in the inner
scope, a failed assignment and an upsert in the root, and a second root. -/
def sampleOps : List Op :=
  [Op.newEnvironment, Op.newEnclosed (some 0), Op.set 1 "x" (Object.Integer 1),
    Op.update 0 "x" Object.Null, Op.upsert 0 "y" (Object.Integer 2), Op.newEnclosed none]

/-- The type test `obj.(*Error)`: whether an object is an Error object. -/
def Object.isError : Object → Bool
  | Object.Error _ => true
  | _ => false

/-! ## The recursion of `Get` -/

theorem GetAux_zero (h : Heap) (e : Nat) (name : String) : GetAux 0 h e name = none := rfl

theorem GetAux_invalid (fuel : Nat) (h : Heap) (e : Nat) (name : String)
    (he : h[e]? = none) : GetAux fuel h e name = none := by
  cases fuel with
  | zero => rfl
  | succ f => simp [GetAux, he]

theorem GetAux_local (fuel : Nat) (h : Heap) (e : Nat) (name : String) (env : Environment)
    (obj : Object) (he : h[e]? = some env) (hs : env.store name = some obj) :
    GetAux (fuel + 1) h e name = some (obj, true) := by
  simp [GetAux, he, Store.lookup, hs]

theorem GetAux_root (fuel : Nat) (h : Heap) (e : Nat) (name : String) (env : Environment)
    (he : h[e]? = some env) (hs : env.store name = none) (ho : env.outer = none) :
    GetAux (fuel + 1) h e name = some (Object.nil, false) := by
  simp [GetAux, he, Store.lookup, hs, ho]

theorem GetAux_outer (fuel : Nat) (h : Heap) (e o : Nat) (name : String) (env : Environment)
    (he : h[e]? = some env) (hs : env.store name = none) (ho : env.outer = some o) :
    GetAux (fuel + 1) h e name = GetAux fuel h o name := by
  simp [GetAux, he, Store.lookup, hs, ho]

/-- More fuel never changes a result already obtained. -/
theorem GetAux_mono (h : Heap) (name : String) :
    ∀ (fuel fuel2 : Nat) (e : Nat) (res : Object × Bool),
      GetAux fuel h e name = some res → fuel ≤ fuel2 → GetAux fuel2 h e name = some res := by
  intro fuel
  induction fuel with
  | zero => intro fuel2 e res hres; simp [GetAux_zero] at hres
  | succ f ih =>
    intro fuel2 e res hres hle
    obtain ⟨g, rfl⟩ : ∃ g, fuel2 = g + 1 := ⟨fuel2 - 1, by omega⟩
    cases he : h[e]? with
    | none => rw [GetAux_invalid _ h e name he] at hres; cases hres
    | some env =>
      cases hs : env.store name with
      | some obj =>
        rw [GetAux_local f h e name env obj he hs] at hres
        rw [GetAux_local g h e name env obj he hs]; exact hres
      | none =>
        cases ho : env.outer with
        | none =>
          rw [GetAux_root f h e name env he hs ho] at hres
          rw [GetAux_root g h e name env he hs ho]; exact hres
        | some o =>
          rw [GetAux_outer f h e o name env he hs ho] at hres
          rw [GetAux_outer g h e o name env he hs ho]
          exact ih g o res hres (by omega)

/-- In a well-formed heap the recursion from a live scope `e` returns within
`e + 1` nested calls. -/
theorem GetAux_total (h : Heap) (name : String) (wf : WellFormed h) :
    ∀ (e : Nat), e < h.length → ∃ res, GetAux (e + 1) h e name = some res := by
  intro e
  induction e using Nat.strong_induction_on with
  | _ e ih =>
    intro hlt
    obtain ⟨env, he⟩ : ∃ env, h[e]? = some env := ⟨h[e], List.getElem?_eq_getElem hlt⟩
    cases hs : env.store name with
    | some obj => exact ⟨_, GetAux_local e h e name env obj he hs⟩
    | none =>
      cases ho : env.outer with
      | none => exact ⟨_, GetAux_root e h e name env he hs ho⟩
      | some o =>
        have hoe : o < e := wf e env o he ho
        obtain ⟨res, hres⟩ := ih o hoe (by omega)
        refine ⟨res, ?_⟩
        rw [GetAux_outer e h e o name env he hs ho]
        exact GetAux_mono h name (o + 1) e o res hres (by omega)

/-- Totality of `Get` on the live scopes of a well-formed heap. -/
theorem Get_total (h : Heap) (name : String) (wf : WellFormed h) (e : Nat)
    (hlt : e < h.length) : ∃ res, Get h e name = some res := by
  obtain ⟨res, hres⟩ := GetAux_total h name wf e hlt
  exact ⟨res, GetAux_mono h name (e + 1) h.length e res hres (by omega)⟩

theorem Get_local (h : Heap) (e : Nat) (name : String) (env : Environment) (obj : Object)
    (he : h[e]? = some env) (hs : env.store name = some obj) :
    Get h e name = some (obj, true) := by
  have hlt : e < h.length := by
    by_contra hge
    rw [List.getElem?_eq_none (by omega)] at he; cases he
  obtain ⟨k, hk⟩ : ∃ k, h.length = k + 1 := ⟨h.length - 1, by omega⟩
  unfold Get; rw [hk]; exact GetAux_local k h e name env obj he hs

theorem Get_root (h : Heap) (e : Nat) (name : String) (env : Environment)
    (he : h[e]? = some env) (hs : env.store name = none) (ho : env.outer = none) :
    Get h e name = some (Object.nil, false) := by
  have hlt : e < h.length := by
    by_contra hge
    rw [List.getElem?_eq_none (by omega)] at he; cases he
  obtain ⟨k, hk⟩ : ∃ k, h.length = k + 1 := ⟨h.length - 1, by omega⟩
  unfold Get; rw [hk]; exact GetAux_root k h e name env he hs ho

/-- The recursive call of `Get`: a name absent from the local store is looked
up in the outer scope. -/
theorem Get_outer (h : Heap) (wf : WellFormed h) (e o : Nat) (name : String)
    (env : Environment) (he : h[e]? = some env) (hs : env.store name = none)
    (ho : env.outer = some o) : Get h e name = Get h o name := by
  have hlt : e < h.length := by
    by_contra hge
    rw [List.getElem?_eq_none (by omega)] at he; cases he
  have hoe : o < e := wf e env o he ho
  obtain ⟨k, hk⟩ : ∃ k, h.length = k + 1 := ⟨h.length - 1, by omega⟩
  obtain ⟨res, hres⟩ := GetAux_total h name wf o (by omega)
  unfold Get
  rw [hk, GetAux_outer k h e o name env he hs ho,
    GetAux_mono h name (o + 1) k o res hres (by omega),
    GetAux_mono h name (o + 1) (k + 1) o res hres (by omega)]

/-! ## Well-formedness and frame lemmas -/

theorem lt_length_of_live (h : Heap) (e : Nat) (env : Environment)
    (he : h[e]? = some env) : e < h.length := by
  by_contra hge
  rw [List.getElem?_eq_none (by omega)] at he; cases he

theorem WellFormed_nil : WellFormed [] := by
  intro e env o he; simp at he

/-- Overwriting a scope without touching its `outer` pointer keeps the heap
well-formed. -/
theorem WellFormed_set (h : Heap) (wf : WellFormed h) (e : Nat) (env env2 : Environment)
    (he : h[e]? = some env) (ho : env2.outer = env.outer) : WellFormed (h.set e env2) := by
  intro i cell o hi hout
  by_cases hie : e = i
  · subst hie
    have hlt := lt_length_of_live h e env he
    rw [List.getElem?_set_self hlt] at hi
    cases hi
    exact wf e env o he (by rw [← ho]; exact hout)
  · rw [List.getElem?_set_ne hie] at hi
    exact wf i cell o hi hout

/-- Allocating a scope whose `outer` pointer, if any, addresses a live scope
keeps the heap well-formed. -/
theorem WellFormed_append (h : Heap) (wf : WellFormed h) (cell : Environment)
    (ho : ∀ o, cell.outer = some o → o < h.length) : WellFormed (h ++ [cell]) := by
  intro i env o hi hout
  by_cases hlt : i < h.length
  · rw [List.getElem?_append_left hlt] at hi
    exact wf i env o hi hout
  · have hil := lt_length_of_live _ i env hi
    simp at hil
    have hieq : i = h.length := by omega
    subst hieq
    simp at hi
    subst hi
    exact ho o hout

/-- A lookup of `name` from `e` reads, in the scopes allocated up to `e`, only
the `outer` pointers and the bindings of `name`. -/
theorem Get_congr (h h2 : Heap) (name : String) (wf : WellFormed h) (wf2 : WellFormed h2) :
    ∀ (e : Nat), e < h.length →
      (∀ i env, i ≤ e → h[i]? = some env →
        ∃ env2, h2[i]? = some env2 ∧ env2.outer = env.outer ∧ env2.store name = env.store name) →
      Get h2 e name = Get h e name := by
  intro e
  induction e using Nat.strong_induction_on with
  | _ e ih =>
    intro hlt hag
    obtain ⟨env, he⟩ : ∃ env, h[e]? = some env := ⟨h[e], List.getElem?_eq_getElem hlt⟩
    obtain ⟨env2, he2, hout, hst⟩ := hag e env (Nat.le_refl e) he
    cases hs : env.store name with
    | some obj =>
      rw [Get_local h e name env obj he hs, Get_local h2 e name env2 obj he2 (by rw [hst, hs])]
    | none =>
      cases ho : env.outer with
      | none =>
        rw [Get_root h e name env he hs ho,
          Get_root h2 e name env2 he2 (by rw [hst, hs]) (by rw [hout, ho])]
      | some o =>
        have hoe : o < e := wf e env o he ho
        rw [Get_outer h wf e o name env he hs ho,
          Get_outer h2 wf2 e o name env2 he2 (by rw [hst, hs]) (by rw [hout, ho])]
        exact ih o hoe (by omega) (fun i cell hi hc => hag i cell (by omega) hc)

/-- A lookup from `e` does not read the scopes allocated after `e`. -/
theorem Get_below (h h2 : Heap) (name : String) (wf : WellFormed h) (wf2 : WellFormed h2)
    (e : Nat) (hlt : e < h.length) (hag : ∀ i, i ≤ e → h2[i]? = h[i]?) :
    Get h2 e name = Get h e name :=
  Get_congr h h2 name wf wf2 e hlt
    (fun i env hi hc => ⟨env, by rw [hag i hi]; exact hc, rfl, rfl⟩)

/-! ## The writes -/

theorem Store.assign_same (s : Store) (name : String) (val : Object) :
    s.assign name val name = some val := by
  simp [Store.assign]

theorem Store.assign_other (s : Store) (name k : String) (val : Object) (hk : k ≠ name) :
    s.assign name val k = s k := by
  simp [Store.assign, hk]

theorem Upsert_eq (h : Heap) (e : Nat) (name : String) (val : Object) (env : Environment)
    (he : h[e]? = some env) :
    Upsert h e name val = some (h.set e { env with store := env.store.assign name val }, val) := by
  simp [Upsert, he]

theorem Set_unbound (h : Heap) (e : Nat) (name : String) (val : Object) (env : Environment)
    (he : h[e]? = some env) (hs : env.store name = none) :
    Set h e name val = some (h.set e { env with store := env.store.assign name val }, val) := by
  simp [Set, he, Store.lookup, hs]

theorem Set_bound (h : Heap) (e : Nat) (name : String) (val old : Object) (env : Environment)
    (he : h[e]? = some env) (hs : env.store name = some old) :
    Set h e name val
      = some (h, Object.Error ("Identifier '" ++ name ++ "' has already been declared")) := by
  simp [Set, he, Store.lookup, hs]

theorem Update_unbound (h : Heap) (e : Nat) (name : String) (val : Object) (env : Environment)
    (he : h[e]? = some env) (hs : env.store name = none) :
    Update h e name val = some (h, Object.Error (name ++ " is not defined")) := by
  simp [Update, he, Store.lookup, hs]

theorem Update_bound (h : Heap) (e : Nat) (name : String) (val old : Object) (env : Environment)
    (he : h[e]? = some env) (hs : env.store name = some old) :
    Update h e name val
      = some (h.set e { env with store := env.store.assign name val }, val) := by
  simp [Update, he, Store.lookup, hs]

theorem NewEnclosedEnvironment_eq (h : Heap) (outer : Option Nat) :
    NewEnclosedEnvironment h outer
      = (h ++ [{ store := fun _ => none, outer := outer }], h.length) := by
  simp [NewEnclosedEnvironment, NewEnvironment]

/-- After `store[name] = val` in scope `e`, a lookup of `name` from `e` yields
`val`. -/
theorem Get_assign (h : Heap) (e : Nat) (name : String) (val : Object) (env : Environment)
    (he : h[e]? = some env) :
    Get (h.set e { env with store := env.store.assign name val }) e name = some (val, true) := by
  have hlt := lt_length_of_live h e env he
  exact Get_local _ e name _ val (List.getElem?_set_self hlt) (Store.assign_same _ _ _)

/-- A write into scope `e` is not seen by lookups from scopes allocated before
`e`. -/
theorem Get_set_below (h : Heap) (wf : WellFormed h) (e r : Nat) (name : String)
    (env env2 : Environment) (he : h[e]? = some env) (ho : env2.outer = env.outer)
    (hr : r < e) : Get (h.set e env2) r name = Get h r name := by
  have hlt := lt_length_of_live h e env he
  refine Get_below h _ name wf (WellFormed_set h wf e env env2 he ho) r (by omega) ?_
  intro i hi
  exact List.getElem?_set_ne (by omega)

theorem wellFormed_of_check (h : Heap) (hc : wellFormedCheck h = true) : WellFormed h := by
  intro e env o he ho
  have hlt := lt_length_of_live h e env he
  have hall := (List.all_eq_true.mp hc) e (List.mem_range.mpr hlt)
  simp only [he, ho] at hall
  exact of_decide_eq_true hall

theorem sampleHeap_wellFormed : WellFormed sampleHeap :=
  wellFormed_of_check sampleHeap (by decide)

/-! ## Reading through the chain -/

/-- Every live scope of a well-formed heap has a chain, of at most `e + 1`
scopes, that ends at a root. -/
theorem IsChain_exists (h : Heap) (wf : WellFormed h) :
    ∀ (e : Nat), e < h.length → ∃ chain, IsChain h e chain ∧ chain.length ≤ e + 1 := by
  intro e
  induction e using Nat.strong_induction_on with
  | _ e ih =>
    intro hlt
    obtain ⟨env, he⟩ : ∃ env, h[e]? = some env := ⟨h[e], List.getElem?_eq_getElem hlt⟩
    cases ho : env.outer with
    | none => exact ⟨[env], IsChain.root e env he ho, by simp⟩
    | some o =>
      have hoe : o < e := wf e env o he ho
      obtain ⟨rest, hrest, hlen⟩ := ih o hoe (by omega)
      exact ⟨env :: rest, IsChain.link e o env rest he ho hrest, by simp; omega⟩

theorem Get_eq_lookupChain (h : Heap) (wf : WellFormed h) (name : String) :
    ∀ (e : Nat) (chain : List Environment), IsChain h e chain →
      Get h e name = some (lookupChain chain name) := by
  intro e chain hc
  induction hc with
  | root e env he ho =>
    cases hs : env.store name with
    | some obj => rw [Get_local h e name env obj he hs]; simp [lookupChain, hs]
    | none => rw [Get_root h e name env he hs ho]; simp [lookupChain, hs]
  | link e o env rest he ho _ ih =>
    cases hs : env.store name with
    | some obj => rw [Get_local h e name env obj he hs]; simp [lookupChain, hs]
    | none => rw [Get_outer h wf e o name env he hs ho, ih]; simp [lookupChain, hs]

theorem lookupChain_found_iff (name : String) (v : Object) :
    ∀ (chain : List Environment), lookupChain chain name = (v, true) ↔
      ∃ pre env post, chain = pre ++ env :: post ∧ (∀ s ∈ pre, s.store name = none) ∧
        env.store name = some v := by
  intro chain
  induction chain with
  | nil => simp [lookupChain]
  | cons env rest ih =>
    cases hs : env.store name with
    | some obj =>
      simp only [lookupChain, hs]
      constructor
      · intro hv
        have hov : obj = v := by simpa using hv
        exact ⟨[], env, rest, rfl, by simp, by rw [hs, hov]⟩
      · rintro ⟨pre, env2, post, heq, hpre, henv⟩
        cases pre with
        | nil =>
          simp only [List.nil_append, List.cons.injEq] at heq
          obtain ⟨h1, _⟩ := heq
          subst h1
          rw [hs] at henv
          cases henv
          rfl
        | cons p ps =>
          simp only [List.cons_append, List.cons.injEq] at heq
          obtain ⟨h1, _⟩ := heq
          subst h1
          have := hpre env (by simp)
          rw [hs] at this
          cases this
    | none =>
      simp only [lookupChain, hs]
      rw [ih]
      constructor
      · rintro ⟨pre, env2, post, heq, hpre, henv⟩
        refine ⟨env :: pre, env2, post, by simp [heq], ?_, henv⟩
        intro s hsm
        rcases List.mem_cons.mp hsm with h1 | h1
        · rw [h1]; exact hs
        · exact hpre s h1
      · rintro ⟨pre, env2, post, heq, hpre, henv⟩
        cases pre with
        | nil =>
          simp only [List.nil_append, List.cons.injEq] at heq
          obtain ⟨h1, _⟩ := heq
          subst h1
          rw [hs] at henv
          cases henv
        | cons p ps =>
          simp only [List.cons_append, List.cons.injEq] at heq
          obtain ⟨_, h2⟩ := heq
          exact ⟨ps, env2, post, h2, fun s hsm => hpre s (List.mem_cons_of_mem _ hsm), henv⟩

theorem lookupChain_missing_iff (name : String) :
    ∀ (chain : List Environment), (∃ v, lookupChain chain name = (v, false)) ↔
      ∀ s ∈ chain, s.store name = none := by
  intro chain
  induction chain with
  | nil => simp [lookupChain]
  | cons env rest ih =>
    cases hs : env.store name with
    | some obj => simp [lookupChain, hs]
    | none =>
      simp only [lookupChain, hs]
      rw [ih]
      simp [hs]

/-- C1: for a scope `e` of a well-formed heap whose chain of scopes (local,
outer, ..., root) is `chain`, `Get` returns; it returns `(v, true)` exactly when
`v` is the binding of `name` in the innermost scope of the chain that binds
`name`, and it returns found = false exactly when no scope of the chain binds
`name`. -/
theorem Get_innermost_binding (h : Heap) (wf : WellFormed h) (e : Nat) (name : String)
    (chain : List Environment) (hc : IsChain h e chain) :
    (∃ res, Get h e name = some res) ∧
    (∀ v, Get h e name = some (v, true) ↔
      ∃ pre env post, chain = pre ++ env :: post ∧ (∀ s ∈ pre, s.store name = none) ∧
        env.store name = some v) ∧
    ((∃ v, Get h e name = some (v, false)) ↔ ∀ s ∈ chain, s.store name = none) := by
  have hget := Get_eq_lookupChain h wf name e chain hc
  refine ⟨⟨_, hget⟩, ?_, ?_⟩
  · intro v
    rw [hget, ← lookupChain_found_iff name v chain]
    simp
  · rw [← lookupChain_missing_iff name chain, hget]
    simp

/-- Witness of C1 on the sample heap: from the scope at address 2 the chain is
the shadowing scope followed by the root. -/
theorem Get_innermost_binding_witness :
    WellFormed sampleHeap ∧ IsChain sampleHeap 2 [sampleShadow, sampleRoot] ∧
    ((∃ res, Get sampleHeap 2 "x" = some res) ∧
    (∀ v, Get sampleHeap 2 "x" = some (v, true) ↔
      ∃ pre env post, [sampleShadow, sampleRoot] = pre ++ env :: post ∧
        (∀ s ∈ pre, s.store "x" = none) ∧ env.store "x" = some v) ∧
    ((∃ v, Get sampleHeap 2 "x" = some (v, false)) ↔
      ∀ s ∈ [sampleShadow, sampleRoot], s.store "x" = none)) :=
  ⟨sampleHeap_wellFormed,
    IsChain.link 2 0 sampleShadow [sampleRoot] rfl rfl (IsChain.root 0 sampleRoot rfl rfl),
    Get_innermost_binding sampleHeap sampleHeap_wellFormed 2 "x" [sampleShadow, sampleRoot]
      (IsChain.link 2 0 sampleShadow [sampleRoot] rfl rfl (IsChain.root 0 sampleRoot rfl rfl))⟩


/-! ## Declaration, redeclaration and assignment -/

/-- C2: shadowing. When `Get` on `outer` yields `(v, true)` for `name` and the
child scope enclosing `outer` has no local binding of `name`, `Set name w` on
the child returns `w` itself; afterwards `Get` on the child yields `(w, true)`
and `Get` on `outer` still yields `(v, true)`. -/
theorem Set_shadows_outer (h : Heap) (wf : WellFormed h) (child outer : Nat) (name : String)
    (v w : Object) (cell : Environment) (hc : h[child]? = some cell)
    (ho : cell.outer = some outer) (hs : cell.store name = none)
    (hv : Get h outer name = some (v, true)) :
    ∃ h2, Set h child name w = some (h2, w) ∧ Get h2 child name = some (w, true) ∧
      Get h2 outer name = some (v, true) := by
  refine ⟨_, Set_unbound h child name w cell hc hs, Get_assign h child name w cell hc, ?_⟩
  rw [Get_set_below h wf child outer name cell
    { cell with store := cell.store.assign name w } hc rfl (wf child cell outer hc ho)]
  exact hv

/-- Witness of C2: declaring `x` in the scope at address 1 of the sample heap,
whose outer scope binds `x` to 1. -/
theorem Set_shadows_outer_witness :
    ∃ h2, Set sampleHeap 1 "x" (Object.Integer 7) = some (h2, Object.Integer 7) ∧
      Get h2 1 "x" = some (Object.Integer 7, true) ∧
      Get h2 0 "x" = some (Object.Integer 1, true) :=
  Set_shadows_outer sampleHeap sampleHeap_wellFormed 1 0 "x" (Object.Integer 1)
    (Object.Integer 7) sampleInner rfl rfl rfl (by decide)

/-- C3: redeclaration is rejected atomically. When `name` is bound in the local
store of scope `e`, `Set name val` returns the Error object with message
"Identifier '<name>' has already been declared" and the heap, hence every
binding of every scope, is the one before the call. -/
theorem Set_redeclaration_rejected (h : Heap) (e : Nat) (name : String) (val old : Object)
    (env : Environment) (he : h[e]? = some env) (hs : env.store name = some old) :
    Set h e name val
      = some (h, Object.Error ("Identifier '" ++ name ++ "' has already been declared")) :=
  Set_bound h e name val old env he hs

/-- Witness of C3: redeclaring `x` in the root of the sample heap. -/
theorem Set_redeclaration_rejected_witness :
    Set sampleHeap 0 "x" Object.Null
      = some (sampleHeap, Object.Error "Identifier 'x' has already been declared") :=
  Set_redeclaration_rejected sampleHeap 0 "x" Object.Null (Object.Integer 1) sampleRoot rfl rfl

/-- C4: declaration then read. When `name` is not bound in the local store of
scope `e`, `Set name val` returns `val` itself and a following `Get name` on
the same scope yields `(val, true)`. -/
theorem Set_then_Get (h : Heap) (e : Nat) (name : String) (val : Object) (env : Environment)
    (he : h[e]? = some env) (hs : env.store name = none) :
    ∃ h2, Set h e name val = some (h2, val) ∧ Get h2 e name = some (val, true) :=
  ⟨_, Set_unbound h e name val env he hs, Get_assign h e name val env he⟩

/-- Witness of C4: declaring `a` in the root of the sample heap. -/
theorem Set_then_Get_witness :
    ∃ h2, Set sampleHeap 0 "a" (Object.Integer 5) = some (h2, Object.Integer 5) ∧
      Get h2 0 "a" = some (Object.Integer 5, true) :=
  Set_then_Get sampleHeap 0 "a" (Object.Integer 5) sampleRoot rfl rfl

/-- C5: `Update` searches only the local scope. When `name` is not bound in the
local store of scope `e`, `Update name val` returns the Error object with
message "<name> is not defined" and the heap is the one before the call: no
binding is created and no scope is modified. Nothing is assumed of the
enclosing scopes, which may bind `name`. -/
theorem Update_local_only (h : Heap) (e : Nat) (name : String) (val : Object)
    (env : Environment) (he : h[e]? = some env) (hs : env.store name = none) :
    Update h e name val = some (h, Object.Error (name ++ " is not defined")) :=
  Update_unbound h e name val env he hs

/-- Witness of C5: in the sample heap `x` is bound in the root only, `Get`
finds it from the scope at address 1, and `Update` on that scope fails. -/
theorem Update_local_only_witness :
    Get sampleHeap 1 "x" = some (Object.Integer 1, true) ∧
    Update sampleHeap 1 "x" (Object.Integer 9)
      = some (sampleHeap, Object.Error "x is not defined") :=
  ⟨by decide, Update_local_only sampleHeap 1 "x" (Object.Integer 9) sampleInner rfl rfl⟩

theorem updateEach_bound (e : Nat) (name : String) :
    ∀ (vs : List Object) (h : Heap) (env : Environment) (old : Object),
      h[e]? = some env → env.store name = some old →
      ∃ hn envn, updateEach h e name vs = some (hn, vs) ∧ hn[e]? = some envn ∧
        envn.store name = some (vs.getLastD old) := by
  intro vs
  induction vs with
  | nil => intro h env old he hs; exact ⟨h, env, rfl, he, hs⟩
  | cons v vs ih =>
    intro h env old he hs
    have hlt := lt_length_of_live h e env he
    obtain ⟨hn, envn, hrun, hen, hsn⟩ :=
      ih (h.set e { env with store := env.store.assign name v })
        { env with store := env.store.assign name v } v
        (List.getElem?_set_self hlt) (Store.assign_same _ _ _)
    refine ⟨hn, envn, ?_, hen, ?_⟩
    · simp [updateEach, Update_bound h e name v old env he hs, hrun]
    · rw [hsn]
      cases vs with
      | nil => rfl
      | cons a l => rfl

/-- C6: assignment to a declared name succeeds and persists. On a scope `e`
where `name` is not yet bound locally, `Set name v0` succeeds, and then for
every non-empty sequence `vs` the calls `Update name v` for `v` in `vs`, in
order, return exactly the objects of `vs`, after which `Get name` on `e`
yields the last object of `vs` with found = true. -/
theorem Update_sequence_persists (h : Heap) (e : Nat) (name : String) (v0 : Object)
    (vs : List Object) (env : Environment) (he : h[e]? = some env)
    (hs : env.store name = none) (hne : vs ≠ []) :
    ∃ h0 hn, Set h e name v0 = some (h0, v0) ∧ updateEach h0 e name vs = some (hn, vs) ∧
      Get hn e name = some (vs.getLast hne, true) := by
  have hlt := lt_length_of_live h e env he
  obtain ⟨hn, envn, hrun, hen, hsn⟩ :=
    updateEach_bound e name vs (h.set e { env with store := env.store.assign name v0 })
      { env with store := env.store.assign name v0 } v0
      (List.getElem?_set_self hlt) (Store.assign_same _ _ _)
  refine ⟨_, hn, Set_unbound h e name v0 env he hs, hrun, ?_⟩
  have hlast : vs.getLastD v0 = vs.getLast hne := by
    cases vs with
    | nil => exact absurd rfl hne
    | cons a l => rfl
  rw [hlast] at hsn
  exact Get_local hn e name envn _ hen hsn

/-- Witness of C6: `let a = 0` in the root of the sample heap followed by the
assignments of 1, 2 and 3 to `a`. -/
theorem Update_sequence_persists_witness :
    ∃ h0 hn, Set sampleHeap 0 "a" (Object.Integer 0) = some (h0, Object.Integer 0) ∧
      updateEach h0 0 "a" [Object.Integer 1, Object.Integer 2, Object.Integer 3]
        = some (hn, [Object.Integer 1, Object.Integer 2, Object.Integer 3]) ∧
      Get hn 0 "a" = some (Object.Integer 3, true) :=
  Update_sequence_persists sampleHeap 0 "a" (Object.Integer 0)
    [Object.Integer 1, Object.Integer 2, Object.Integer 3] sampleRoot rfl rfl (by simp)

/-- C7: `Upsert` is unconditional. On every live scope `e`, whatever the local
store and the enclosing scopes bind, `Upsert name val` returns `val` itself and
a following `Get name` on the same scope yields `(val, true)`. -/
theorem Upsert_then_Get (h : Heap) (e : Nat) (name : String) (val : Object)
    (hlt : e < h.length) :
    ∃ h2, Upsert h e name val = some (h2, val) ∧ Get h2 e name = some (val, true) :=
  ⟨_, Upsert_eq h e name val h[e] (List.getElem?_eq_getElem hlt),
    Get_assign h e name val h[e] (List.getElem?_eq_getElem hlt)⟩

/-- Witness of C7: `Upsert` of `x`, bound locally, and of `y`, bound nowhere in
the chain, on the root of the sample heap. -/
theorem Upsert_then_Get_witness :
    (∃ h2, Upsert sampleHeap 0 "x" Object.Null = some (h2, Object.Null) ∧
      Get h2 0 "x" = some (Object.Null, true)) ∧
    (∃ h2, Upsert sampleHeap 0 "y" Object.Null = some (h2, Object.Null) ∧
      Get h2 0 "y" = some (Object.Null, true)) :=
  ⟨Upsert_then_Get sampleHeap 0 "x" Object.Null (by decide),
    Upsert_then_Get sampleHeap 0 "y" Object.Null (by decide)⟩

/-! ## Call frames and enclosed scopes -/

theorem Store.assignEach_other (name : String) :
    ∀ (binds : List (String × Object)) (s : Store), name ∉ binds.map Prod.fst →
      s.assignEach binds name = s name := by
  intro binds
  induction binds with
  | nil => intro s _; rfl
  | cons q rest ih =>
    intro s hnm
    simp only [List.map_cons, List.mem_cons, not_or] at hnm
    have hstep : s.assignEach (q :: rest) = (s.assign q.1 q.2).assignEach rest := rfl
    rw [hstep, ih (s.assign q.1 q.2) hnm.2, Store.assign_other s q.1 name q.2 hnm.1]

theorem Store.assignEach_mem :
    ∀ (binds : List (String × Object)) (s : Store), (binds.map Prod.fst).Nodup →
      ∀ p ∈ binds, s.assignEach binds p.1 = some p.2 := by
  intro binds
  induction binds with
  | nil => intro s _ p hp; cases hp
  | cons q rest ih =>
    intro s hnd p hp
    simp only [List.map_cons, List.nodup_cons] at hnd
    have hstep : s.assignEach (q :: rest) = (s.assign q.1 q.2).assignEach rest := rfl
    rw [hstep]
    rcases List.mem_cons.mp hp with hpq | hpr
    · subst hpq
      rw [Store.assignEach_other p.1 rest (s.assign p.1 p.2) hnd.1]
      exact Store.assign_same s p.1 p.2
    · exact ih (s.assign q.1 q.2) hnd.2 p hpr

/-- Declaring pairwise-distinct names, none of them bound locally, never takes
the error branch of `Set`. -/
theorem setEach_fresh (f : Nat) :
    ∀ (binds : List (String × Object)) (g : Heap) (env : Environment),
      g[f]? = some env → (∀ p ∈ binds, env.store p.1 = none) → (binds.map Prod.fst).Nodup →
      setEach g f binds
        = some (g.set f { env with store := env.store.assignEach binds }, binds.map Prod.snd) := by
  intro binds
  induction binds with
  | nil =>
    intro g env hg _ _
    have hlt := lt_length_of_live g f env hg
    have hself : g.set f env = g := by
      apply List.ext_getElem?
      intro i
      by_cases hi : f = i
      · subst hi; rw [List.getElem?_set_self hlt, hg]
      · rw [List.getElem?_set_ne hi]
    simp only [setEach, List.map_nil, Store.assignEach, List.foldl_nil]
    rw [hself]
  | cons q rest ih =>
    intro g env hg hfree hnd
    obtain ⟨name, val⟩ := q
    simp only [List.map_cons, List.nodup_cons] at hnd
    have hlt := lt_length_of_live g f env hg
    have hrest : ∀ p ∈ rest, (env.store.assign name val) p.1 = none := by
      intro p hp
      have hpn : p.1 ≠ name := by
        intro heq
        exact hnd.1 (by rw [← heq]; exact List.mem_map_of_mem Prod.fst hp)
      rw [Store.assign_other env.store name p.1 val hpn]
      exact hfree p (List.mem_cons_of_mem _ hp)
    have hrun := ih (g.set f { env with store := env.store.assign name val })
      { env with store := env.store.assign name val } (List.getElem?_set_self hlt) hrest hnd.2
    simp only [setEach, Set_unbound g f name val env hg (hfree (name, val) (by simp)), hrun,
      List.set_set, List.map_cons]
    rfl

/-- C8: call-frame binding. For every live scope `closureEnv` of a well-formed
heap and every list of pairwise-distinct parameter names paired with values,
the calls `Set(param_i, value_i)` made in order on
`NewEnclosedEnvironment(closureEnv)` return exactly the values (the
duplicate-declaration branch is never taken), whatever `closureEnv` binds;
afterwards `Get(param_i)` on the new scope yields `(value_i, true)`, and `Get`
of a name that is not a parameter yields what `closureEnv.Get` yields. -/
theorem call_frame_binding (h : Heap) (wf : WellFormed h) (closureEnv : Nat)
    (hlt : closureEnv < h.length) (binds : List (String × Object))
    (hnd : (binds.map Prod.fst).Nodup) :
    ∃ hn, setEach (NewEnclosedEnvironment h (some closureEnv)).1
        (NewEnclosedEnvironment h (some closureEnv)).2 binds = some (hn, binds.map Prod.snd) ∧
      (∀ p ∈ binds, Get hn (NewEnclosedEnvironment h (some closureEnv)).2 p.1
        = some (p.2, true)) ∧
      (∀ name, name ∉ binds.map Prod.fst →
        ∃ res, Get h closureEnv name = some res ∧
          Get hn (NewEnclosedEnvironment h (some closureEnv)).2 name = some res) := by
  rw [NewEnclosedEnvironment_eq]
  simp only
  have hcell : (h ++ [({ store := fun _ => none, outer := some closureEnv } : Environment)])[h.length]?
      = some { store := fun _ => none, outer := some closureEnv } := by simp
  have hflt := lt_length_of_live _ _ _ hcell
  have wf1 : WellFormed (h ++ [({ store := fun _ => none, outer := some closureEnv } : Environment)]) :=
    WellFormed_append h wf _ (by intro o ho; cases ho; exact hlt)
  have wfn := WellFormed_set _ wf1 h.length _
    ({ store := Store.assignEach (fun _ => none) binds, outer := some closureEnv } : Environment)
    hcell rfl
  refine ⟨_, setEach_fresh h.length binds _ _ hcell (fun _ _ => rfl) hnd, ?_, ?_⟩
  · intro p hp
    exact Get_local _ h.length p.1 _ p.2 (List.getElem?_set_self hflt)
      (Store.assignEach_mem binds _ hnd p hp)
  · intro name hname
    obtain ⟨res, hres⟩ := Get_total h name wf closureEnv hlt
    refine ⟨res, hres, ?_⟩
    rw [Get_outer _ wfn h.length closureEnv name _ (List.getElem?_set_self hflt)
      (Store.assignEach_other name binds _ hname) rfl, ← hres]
    refine Get_below h _ name wf wfn closureEnv hlt ?_
    intro i hi
    rw [List.getElem?_set_ne (by omega), List.getElem?_append_left (by omega)]

/-- Witness of C8: a call frame enclosing the root of the sample heap, with
parameters `x` (which the root binds as well) and `y`. -/
theorem call_frame_binding_witness :
    ∃ hn, setEach (NewEnclosedEnvironment sampleHeap (some 0)).1
        (NewEnclosedEnvironment sampleHeap (some 0)).2
        [("x", Object.Integer 5), ("y", Object.Null)]
          = some (hn, [Object.Integer 5, Object.Null]) ∧
      (∀ p ∈ [("x", Object.Integer 5), ("y", Object.Null)],
        Get hn (NewEnclosedEnvironment sampleHeap (some 0)).2 p.1 = some (p.2, true)) ∧
      (∀ name, name ∉ ["x", "y"] →
        ∃ res, Get sampleHeap 0 name = some res ∧
          Get hn (NewEnclosedEnvironment sampleHeap (some 0)).2 name = some res) :=
  call_frame_binding sampleHeap sampleHeap_wellFormed 0 (by decide)
    [("x", Object.Integer 5), ("y", Object.Null)] (by decide)

/-- C9: `NewEnclosedEnvironment(outer)` allocates a scope with an empty local
store whose `outer` pointer is the given scope. On a well-formed heap with
`outer` live, `Get` on the new scope returns, for every name, the very pair
that `Get` on `outer` returns, and the allocation changes no lookup on the
scopes that existed before, `outer` included. -/
theorem NewEnclosedEnvironment_transparent (h : Heap) (wf : WellFormed h) (outer : Nat)
    (hlt : outer < h.length) :
    (NewEnclosedEnvironment h (some outer)).1[(NewEnclosedEnvironment h (some outer)).2]?
      = some { store := fun _ => none, outer := some outer } ∧
    (∀ name, ∃ res, Get h outer name = some res ∧
      Get (NewEnclosedEnvironment h (some outer)).1
        (NewEnclosedEnvironment h (some outer)).2 name = some res) ∧
    (∀ r name, r < h.length →
      Get (NewEnclosedEnvironment h (some outer)).1 r name = Get h r name) := by
  rw [NewEnclosedEnvironment_eq]
  simp only
  have hcell : (h ++ [({ store := fun _ => none, outer := some outer } : Environment)])[h.length]?
      = some { store := fun _ => none, outer := some outer } := by simp
  have wf1 : WellFormed (h ++ [({ store := fun _ => none, outer := some outer } : Environment)]) :=
    WellFormed_append h wf _ (by intro o ho; cases ho; exact hlt)
  have hold : ∀ r name, r < h.length →
      Get (h ++ [({ store := fun _ => none, outer := some outer } : Environment)]) r name
        = Get h r name := by
    intro r name hr
    refine Get_below h _ name wf wf1 r hr ?_
    intro i hi
    exact List.getElem?_append_left (by omega)
  refine ⟨hcell, ?_, hold⟩
  intro name
  obtain ⟨res, hres⟩ := Get_total h name wf outer hlt
  refine ⟨res, hres, ?_⟩
  rw [Get_outer _ wf1 h.length outer name _ hcell rfl rfl, hold outer name hlt, hres]

/-- Witness of C9: a scope enclosing the scope at address 1 of the sample
heap. -/
theorem NewEnclosedEnvironment_transparent_witness :
    (NewEnclosedEnvironment sampleHeap (some 1)).1[(NewEnclosedEnvironment sampleHeap (some 1)).2]?
      = some { store := fun _ => none, outer := some 1 } ∧
    (∀ name, ∃ res, Get sampleHeap 1 name = some res ∧
      Get (NewEnclosedEnvironment sampleHeap (some 1)).1
        (NewEnclosedEnvironment sampleHeap (some 1)).2 name = some res) ∧
    (∀ r name, r < sampleHeap.length →
      Get (NewEnclosedEnvironment sampleHeap (some 1)).1 r name = Get sampleHeap r name) :=
  NewEnclosedEnvironment_transparent sampleHeap sampleHeap_wellFormed 1 (by decide)

/-- After `store[name] = val` in the scope `outer`, a scope whose `outer`
pointer is `outer` and which does not bind `name` locally reads `val`. -/
theorem Get_child_after_assign (h : Heap) (wf : WellFormed h) (child outer : Nat)
    (name : String) (val : Object) (cell ocell : Environment) (hc : h[child]? = some cell)
    (ho : cell.outer = some outer) (hs : cell.store name = none)
    (hoc : h[outer]? = some ocell) :
    Get (h.set outer { ocell with store := ocell.store.assign name val }) child name
      = some (val, true) := by
  have hlt : outer < child := wf child cell outer hc ho
  have wf2 := WellFormed_set h wf outer ocell
    { ocell with store := ocell.store.assign name val } hoc rfl
  have hc2 : (h.set outer { ocell with store := ocell.store.assign name val })[child]?
      = some cell := by
    rw [List.getElem?_set_ne (by omega)]; exact hc
  rw [Get_outer _ wf2 child outer name cell hc2 hs ho]
  exact Get_assign h outer name val ocell hoc

/-- C10: capture by reference. In a well-formed heap let `child` be a scope
whose `outer` pointer is `outer` and which does not bind `name` locally. After
a successful `Set` (name not yet bound in `outer`), a successful `Update` (name
bound in `outer`) or an `Upsert` of `name` to `val` on `outer`, `Get name` on
`child` yields `(val, true)`. -/
theorem outer_write_visible_in_child (h : Heap) (wf : WellFormed h) (child outer : Nat)
    (name : String) (val : Object) (cell ocell : Environment) (hc : h[child]? = some cell)
    (ho : cell.outer = some outer) (hs : cell.store name = none)
    (hoc : h[outer]? = some ocell) :
    (ocell.store name = none →
      ∃ h2, Set h outer name val = some (h2, val) ∧ Get h2 child name = some (val, true)) ∧
    (∀ old, ocell.store name = some old →
      ∃ h2, Update h outer name val = some (h2, val) ∧ Get h2 child name = some (val, true)) ∧
    (∃ h2, Upsert h outer name val = some (h2, val) ∧ Get h2 child name = some (val, true)) := by
  have hget := Get_child_after_assign h wf child outer name val cell ocell hc ho hs hoc
  exact ⟨fun hfree => ⟨_, Set_unbound h outer name val ocell hoc hfree, hget⟩,
    fun old hold => ⟨_, Update_bound h outer name val old ocell hoc hold, hget⟩,
    ⟨_, Upsert_eq h outer name val ocell hoc, hget⟩⟩

/-- Witness of C10: in the sample heap the scope at address 1 encloses the
root and binds neither `x` nor `z`; `z` is declared and `x` is assigned in the
root after the inner scope was created. -/
theorem outer_write_visible_in_child_witness :
    (∃ h2, Set sampleHeap 0 "z" (Object.Integer 8) = some (h2, Object.Integer 8) ∧
      Get h2 1 "z" = some (Object.Integer 8, true)) ∧
    (∃ h2, Update sampleHeap 0 "x" (Object.Integer 8) = some (h2, Object.Integer 8) ∧
      Get h2 1 "x" = some (Object.Integer 8, true)) ∧
    (∃ h2, Upsert sampleHeap 0 "x" (Object.Integer 8) = some (h2, Object.Integer 8) ∧
      Get h2 1 "x" = some (Object.Integer 8, true)) :=
  ⟨(outer_write_visible_in_child sampleHeap sampleHeap_wellFormed 1 0 "z" (Object.Integer 8)
      sampleInner sampleRoot rfl rfl rfl rfl).1 rfl,
    (outer_write_visible_in_child sampleHeap sampleHeap_wellFormed 1 0 "x" (Object.Integer 8)
      sampleInner sampleRoot rfl rfl rfl rfl).2.1 (Object.Integer 1) rfl,
    (outer_write_visible_in_child sampleHeap sampleHeap_wellFormed 1 0 "x" (Object.Integer 8)
      sampleInner sampleRoot rfl rfl rfl rfl).2.2⟩

/-! ## Locality of writes -/

/-- In a well-formed heap an enclosing scope was allocated before the scopes
it encloses; in particular no scope encloses itself. -/
theorem Enclosing_lt (h : Heap) (wf : WellFormed h) :
    ∀ (e o : Nat), Enclosing h e o → o < e := by
  intro e o henc
  induction henc with
  | outer e o env he ho => exact wf e env o he ho
  | further e o p env he ho _ ih => have := wf e env o he ho; omega

/-- The statement `store[n] = val` executed in scope `e` respects the frame of
a write of `n` in `e`. -/
theorem WriteFrame_assign (h : Heap) (wf : WellFormed h) (e : Nat) (n : String) (val : Object)
    (env : Environment) (he : h[e]? = some env) :
    WriteFrame h (h.set e { env with store := env.store.assign n val }) e n := by
  have hlt := lt_length_of_live h e env he
  have wf2 := WellFormed_set h wf e env { env with store := env.store.assign n val } he rfl
  constructor
  · intro m hm
    refine Get_congr h _ m wf wf2 e hlt ?_
    intro i cell _ hc
    by_cases hie : e = i
    · subst hie
      rw [he] at hc
      cases hc
      exact ⟨_, List.getElem?_set_self hlt, rfl, Store.assign_other env.store n m val hm⟩
    · exact ⟨cell, by rw [List.getElem?_set_ne hie]; exact hc, rfl, rfl⟩
  · intro o henc m
    exact Get_set_below h wf e o m env _ he rfl (Enclosing_lt h wf e o henc)

theorem WriteFrame_refl (h : Heap) (e : Nat) (n : String) : WriteFrame h h e n :=
  ⟨fun _ _ => rfl, fun _ _ _ => rfl⟩

/-- C11: writes are local to one name in one scope. On a live scope `e` of a
well-formed heap each of `Set(n, val)`, `Update(n, val)` and `Upsert(n, val)`
returns, and whether it took its error branch or not, `Get(m)` on `e` is
unchanged for every name `m` other than `n`, and every lookup on every scope
enclosing `e` (the outer scope and all further ones) is unchanged. -/
theorem writes_are_local (h : Heap) (wf : WellFormed h) (e : Nat) (n : String) (val : Object)
    (env : Environment) (he : h[e]? = some env) :
    (∃ h2 r, Set h e n val = some (h2, r) ∧ WriteFrame h h2 e n) ∧
    (∃ h2 r, Update h e n val = some (h2, r) ∧ WriteFrame h h2 e n) ∧
    (∃ h2 r, Upsert h e n val = some (h2, r) ∧ WriteFrame h h2 e n) := by
  have hw := WriteFrame_assign h wf e n val env he
  refine ⟨?_, ?_, ⟨_, _, Upsert_eq h e n val env he, hw⟩⟩
  · cases hs : env.store n with
    | none => exact ⟨_, _, Set_unbound h e n val env he hs, hw⟩
    | some old => exact ⟨_, _, Set_bound h e n val old env he hs, WriteFrame_refl h e n⟩
  · cases hs : env.store n with
    | none => exact ⟨_, _, Update_unbound h e n val env he hs, WriteFrame_refl h e n⟩
    | some old => exact ⟨_, _, Update_bound h e n val old env he hs, hw⟩

/-- Witness of C11: writes of `x` in the scope at address 2 of the sample
heap, which binds `x` and is enclosed in the root. -/
theorem writes_are_local_witness :
    (∃ h2 r, Set sampleHeap 2 "x" Object.Null = some (h2, r) ∧ WriteFrame sampleHeap h2 2 "x") ∧
    (∃ h2 r, Update sampleHeap 2 "x" Object.Null = some (h2, r) ∧
      WriteFrame sampleHeap h2 2 "x") ∧
    (∃ h2 r, Upsert sampleHeap 2 "x" Object.Null = some (h2, r) ∧
      WriteFrame sampleHeap h2 2 "x") :=
  writes_are_local sampleHeap sampleHeap_wellFormed 2 "x" Object.Null sampleShadow rfl

/-- C12: a fresh root environment binds nothing. Whatever the heap, `Get` on
the scope just returned by `NewEnvironment()` returns found = false (with the
nil object) for every name. -/
theorem NewEnvironment_binds_nothing (h : Heap) (name : String) :
    Get (NewEnvironment h).1 (NewEnvironment h).2 name = some (Object.nil, false) := by
  have hcell : (NewEnvironment h).1[(NewEnvironment h).2]?
      = some { store := fun _ => none, outer := none } := by
    simp [NewEnvironment]
  exact Get_root _ _ name _ hcell rfl rfl

/-! ## The order of the search -/

/-- Counterexample to C13 as stated: in the sample heap the scope at address 2
binds `x` to 3 locally and its outer scope, the root, binds `x` to 1; `Get` on
the inner scope yields 3, the local value, not the value 1 of the outer
scope. -/
theorem Get_outer_first_counterexample :
    sampleHeap[2]? = some sampleShadow ∧ sampleShadow.outer = some 0 ∧
    sampleHeap[0]? = some sampleRoot ∧
    sampleShadow.store "x" = some (Object.Integer 3) ∧
    sampleRoot.store "x" = some (Object.Integer 1) ∧
    Get sampleHeap 0 "x" = some (Object.Integer 1, true) ∧
    Get sampleHeap 2 "x" = some (Object.Integer 3, true) ∧
    Get sampleHeap 2 "x" ≠ some (Object.Integer 1, true) :=
  ⟨rfl, rfl, rfl, rfl, rfl, by decide, by decide, by decide⟩

theorem IsChain_head (h : Heap) (e : Nat) (chain : List Environment) (env : Environment)
    (hc : IsChain h e chain) (he : h[e]? = some env) :
    ∃ rest, chain = env :: rest ∧ ∀ o, env.outer = some o → IsChain h o rest := by
  cases hc with
  | root _ env2 he2 ho2 =>
    rw [he] at he2
    cases he2
    exact ⟨[], rfl, fun o ho => by rw [ho2] at ho; cases ho⟩
  | link _ o2 env2 rest he2 ho2 hrest =>
    rw [he] at he2
    cases he2
    exact ⟨rest, rfl, fun o ho => by rw [ho2] at ho; cases ho; exact hrest⟩

/-- C13, amended: `Get` searches the chain of scopes inner-to-outer. For every
scope `e` of a well-formed heap, with its chain listed innermost first, the
result of `Get` is that of reading the chain in that order: it is `(v, true)`
exactly when some scope of the chain binds the name to `v` and no scope before
it in the chain binds the name, and a miss in the local store hands the search
to the outer scope. So for a name bound to `v` in the local store of `e` and to
`w` in the store of its outer scope, the chain lists the local scope first and
the outer scope next, and `Get` on `e` yields `(v, true)`, the local value. -/
theorem Get_inner_first (h : Heap) (wf : WellFormed h) (e : Nat) (name : String)
    (chain : List Environment) (hc : IsChain h e chain) :
    Get h e name = some (lookupChain chain name) ∧
    (∀ v, Get h e name = some (v, true) ↔
      ∃ pre env post, chain = pre ++ env :: post ∧ (∀ s ∈ pre, s.store name = none) ∧
        env.store name = some v) ∧
    (∀ (env : Environment) (o : Nat), h[e]? = some env → env.outer = some o →
      env.store name = none → Get h e name = Get h o name) ∧
    (∀ (env ocell : Environment) (o : Nat) (v w : Object), h[e]? = some env →
      env.outer = some o → h[o]? = some ocell → env.store name = some v →
      ocell.store name = some w →
        (∃ rest, chain = env :: ocell :: rest) ∧ Get h e name = some (v, true) ∧
          Get h o name = some (w, true)) := by
  have hget := Get_eq_lookupChain h wf name e chain hc
  refine ⟨hget, ?_, ?_, ?_⟩
  · intro v
    rw [hget, ← lookupChain_found_iff name v chain]
    simp
  · intro env o he ho hs
    exact Get_outer h wf e o name env he hs ho
  · intro env ocell o v w he ho hoc hv hw
    refine ⟨?_, Get_local h e name env v he hv, Get_local h o name ocell w hoc hw⟩
    obtain ⟨rest, hchain, hrest⟩ := IsChain_head h e chain env hc he
    obtain ⟨rest2, hchain2, _⟩ := IsChain_head h o rest ocell (hrest o ho) hoc
    exact ⟨rest2, by rw [hchain, hchain2]⟩

/-- Witness of the amended C13 on the sample heap. Read from the scope at
address 1, which does not bind `x` and whose outer scope, the root, binds `x`
to 1, the search goes on to the outer scope; read from the scope at address 2,
which binds `x` to 3 in front of the root, the local value is returned. -/
theorem Get_inner_first_witness :
    WellFormed sampleHeap ∧ IsChain sampleHeap 1 [sampleInner, sampleRoot] ∧
    Get sampleHeap 1 "x" = some (Object.Integer 1, true) ∧
    (Get sampleHeap 1 "x" = some (lookupChain [sampleInner, sampleRoot] "x") ∧
    (∀ v, Get sampleHeap 1 "x" = some (v, true) ↔
      ∃ pre env post, [sampleInner, sampleRoot] = pre ++ env :: post ∧
        (∀ s ∈ pre, s.store "x" = none) ∧ env.store "x" = some v) ∧
    (∀ (env : Environment) (o : Nat), sampleHeap[1]? = some env → env.outer = some o →
      env.store "x" = none → Get sampleHeap 1 "x" = Get sampleHeap o "x") ∧
    (∀ (env ocell : Environment) (o : Nat) (v w : Object), sampleHeap[1]? = some env →
      env.outer = some o → sampleHeap[o]? = some ocell → env.store "x" = some v →
      ocell.store "x" = some w →
        (∃ rest, [sampleInner, sampleRoot] = env :: ocell :: rest) ∧
          Get sampleHeap 1 "x" = some (v, true) ∧ Get sampleHeap o "x" = some (w, true))) ∧
    ((∃ rest, [sampleShadow, sampleRoot] = sampleShadow :: sampleRoot :: rest) ∧
      Get sampleHeap 2 "x" = some (Object.Integer 3, true) ∧
      Get sampleHeap 0 "x" = some (Object.Integer 1, true)) :=
  ⟨sampleHeap_wellFormed,
    IsChain.link 1 0 sampleInner [sampleRoot] rfl rfl (IsChain.root 0 sampleRoot rfl rfl),
    by decide,
    Get_inner_first sampleHeap sampleHeap_wellFormed 1 "x" [sampleInner, sampleRoot]
      (IsChain.link 1 0 sampleInner [sampleRoot] rfl rfl (IsChain.root 0 sampleRoot rfl rfl)),
    (Get_inner_first sampleHeap sampleHeap_wellFormed 2 "x" [sampleShadow, sampleRoot]
      (IsChain.link 2 0 sampleShadow [sampleRoot] rfl rfl
        (IsChain.root 0 sampleRoot rfl rfl))).2.2.2
      sampleShadow sampleRoot 0 (Object.Integer 3) (Object.Integer 1) rfl rfl rfl rfl rfl⟩

/-! ## Finiteness of the scope chain -/

/-- A write either leaves the heap as it is or overwrites the store of the
receiver. -/
theorem write_cases (h h2 : Heap) (e : Nat) (name : String) (val : Object)
    (hw : (Set h e name val).map Prod.fst = some h2 ∨
      (Update h e name val).map Prod.fst = some h2 ∨
      (Upsert h e name val).map Prod.fst = some h2) :
    h2 = h ∨ ∃ env, h[e]? = some env ∧
      h2 = h.set e { env with store := env.store.assign name val } := by
  cases he : h[e]? with
  | none =>
    rcases hw with hw | hw | hw
    · simp [Set, he] at hw
    · simp [Update, he] at hw
    · simp [Upsert, he] at hw
  | some env =>
    rcases hw with hw | hw | hw
    · cases hs : env.store name with
      | none =>
        rw [Set_unbound h e name val env he hs] at hw
        exact Or.inr ⟨env, rfl, by simpa using hw.symm⟩
      | some old =>
        rw [Set_bound h e name val old env he hs] at hw
        exact Or.inl (by simpa using hw.symm)
    · cases hs : env.store name with
      | none =>
        rw [Update_unbound h e name val env he hs] at hw
        exact Or.inl (by simpa using hw.symm)
      | some old =>
        rw [Update_bound h e name val old env he hs] at hw
        exact Or.inr ⟨env, rfl, by simpa using hw.symm⟩
    · rw [Upsert_eq h e name val env he] at hw
      exact Or.inr ⟨env, rfl, by simpa using hw.symm⟩

/-- Every call keeps the heap well-formed. -/
theorem step_wellFormed (h h2 : Heap) (op : Op) (wf : WellFormed h)
    (hs : step h op = some h2) : WellFormed h2 := by
  cases op with
  | newEnvironment =>
    simp only [step, NewEnvironment, Option.some.injEq] at hs
    subst hs
    exact WellFormed_append h wf _ (by intro o ho; cases ho)
  | newEnclosed outer =>
    cases outer with
    | none =>
      simp only [step, NewEnclosedEnvironment_eq, Option.some.injEq] at hs
      subst hs
      exact WellFormed_append h wf _ (by intro o ho; cases ho)
    | some o =>
      by_cases hlt : o < h.length
      · simp only [step, hlt, if_true, NewEnclosedEnvironment_eq, Option.some.injEq] at hs
        subst hs
        exact WellFormed_append h wf _ (by intro p hp; cases hp; exact hlt)
      · simp [step, hlt] at hs
  | set e name val =>
    rcases write_cases h h2 e name val (Or.inl hs) with heq | ⟨env, he, heq⟩
    · rw [heq]; exact wf
    · rw [heq]; exact WellFormed_set h wf e env _ he rfl
  | update e name val =>
    rcases write_cases h h2 e name val (Or.inr (Or.inl hs)) with heq | ⟨env, he, heq⟩
    · rw [heq]; exact wf
    · rw [heq]; exact WellFormed_set h wf e env _ he rfl
  | upsert e name val =>
    rcases write_cases h h2 e name val (Or.inr (Or.inr hs)) with heq | ⟨env, he, heq⟩
    · rw [heq]; exact wf
    · rw [heq]; exact WellFormed_set h wf e env _ he rfl

theorem run_wellFormed :
    ∀ (ops : List Op) (h h2 : Heap), WellFormed h → run h ops = some h2 → WellFormed h2 := by
  intro ops
  induction ops with
  | nil => intro h h2 wf hr; simp only [run, Option.some.injEq] at hr; rw [← hr]; exact wf
  | cons op ops ih =>
    intro h h2 wf hr
    cases hs : step h op with
    | none => simp [run, hs] at hr
    | some h1 =>
      simp only [run, hs] at hr
      exact ih h1 h2 (step_wellFormed h h1 op wf hs) hr

/-- No call reassigns an `outer` pointer: every scope is still there after the
call, with the `outer` pointer it had. -/
theorem step_keeps_outer (h h2 : Heap) (op : Op) (hs : step h op = some h2) (e : Nat)
    (env : Environment) (he : h[e]? = some env) :
    ∃ env2, h2[e]? = some env2 ∧ env2.outer = env.outer := by
  have hlt := lt_length_of_live h e env he
  have happ : ∀ cell : Environment, (h ++ [cell])[e]? = some env := by
    intro cell; rw [List.getElem?_append_left hlt]; exact he
  have hwrite : ∀ (r : Nat) (name : String) (val : Object),
      (h2 = h ∨ ∃ cell, h[r]? = some cell ∧
        h2 = h.set r { cell with store := cell.store.assign name val }) →
      ∃ env2, h2[e]? = some env2 ∧ env2.outer = env.outer := by
    intro r name val hc
    rcases hc with heq | ⟨cell, hr, heq⟩
    · rw [heq]; exact ⟨env, he, rfl⟩
    · rw [heq]
      by_cases hre : r = e
      · subst hre
        rw [he] at hr
        cases hr
        exact ⟨_, List.getElem?_set_self hlt, rfl⟩
      · exact ⟨env, by rw [List.getElem?_set_ne hre]; exact he, rfl⟩
  cases op with
  | newEnvironment =>
    simp only [step, NewEnvironment, Option.some.injEq] at hs
    subst hs
    exact ⟨env, happ _, rfl⟩
  | newEnclosed outer =>
    cases outer with
    | none =>
      simp only [step, NewEnclosedEnvironment_eq, Option.some.injEq] at hs
      subst hs
      exact ⟨env, happ _, rfl⟩
    | some o =>
      by_cases hol : o < h.length
      · simp only [step, hol, if_true, NewEnclosedEnvironment_eq, Option.some.injEq] at hs
        subst hs
        exact ⟨env, happ _, rfl⟩
      · simp [step, hol] at hs
  | set r name val => exact hwrite r name val (write_cases h h2 r name val (Or.inl hs))
  | update r name val =>
    exact hwrite r name val (write_cases h h2 r name val (Or.inr (Or.inl hs)))
  | upsert r name val =>
    exact hwrite r name val (write_cases h h2 r name val (Or.inr (Or.inr hs)))

/-- The recursion of `Get` returns within as many nested calls as the chain has
scopes. -/
theorem GetAux_chain (h : Heap) (name : String) :
    ∀ (e : Nat) (chain : List Environment), IsChain h e chain →
      GetAux chain.length h e name = some (lookupChain chain name) := by
  intro e chain hc
  induction hc with
  | root e env he ho =>
    cases hs : env.store name with
    | some obj =>
      rw [List.length_singleton, GetAux_local 0 h e name env obj he hs]; simp [lookupChain, hs]
    | none =>
      rw [List.length_singleton, GetAux_root 0 h e name env he hs ho]; simp [lookupChain, hs]
  | link e o env rest he ho _ ih =>
    cases hs : env.store name with
    | some obj =>
      rw [List.length_cons, GetAux_local _ h e name env obj he hs]; simp [lookupChain, hs]
    | none =>
      rw [List.length_cons, GetAux_outer _ h e o name env he hs ho, ih]; simp [lookupChain, hs]

/-- The last scope of a chain is a root. -/
theorem IsChain_last (h : Heap) :
    ∀ (e : Nat) (chain : List Environment), IsChain h e chain →
      ∃ last, chain.getLast? = some last ∧ last.outer = none := by
  intro e chain hc
  induction hc with
  | root e env _ ho => exact ⟨env, rfl, ho⟩
  | link e o env rest _ _ _ ih =>
    obtain ⟨last, hlast, hroot⟩ := ih
    cases rest with
    | nil => simp at hlast
    | cons a t => exact ⟨last, by rw [List.getLast?_cons_cons]; exact hlast, hroot⟩

/-- C14: the scope chain is always finite and ends at a root. Let `h` be the
heap after any sequence of constructor calls and `Set`, `Update`, `Upsert`
calls, started with nothing allocated. No further call reassigns an `outer`
pointer of `h`; and for every scope `e` of `h`, no scope encloses itself, `e`
has a chain of scopes that ends in a scope whose `outer` is nil, and for every
name the recursion of `Get` returns within as many nested calls as that chain
has scopes, which is the result of `Get`. -/
theorem scope_chain_finite (ops : List Op) (h : Heap) (hrun : run [] ops = some h) :
    (∀ (op : Op) (h2 : Heap), step h op = some h2 →
      ∀ (e : Nat) (env : Environment), h[e]? = some env →
        ∃ env2, h2[e]? = some env2 ∧ env2.outer = env.outer) ∧
    (∀ e, e < h.length →
      (∀ o, Enclosing h e o → o ≠ e) ∧
      ∃ chain, IsChain h e chain ∧ chain.length ≤ h.length ∧
        (∃ last, chain.getLast? = some last ∧ last.outer = none) ∧
        ∀ name, ∃ res, GetAux chain.length h e name = some res ∧
          Get h e name = some res) := by
  have wf : WellFormed h := run_wellFormed ops [] h WellFormed_nil hrun
  refine ⟨fun op h2 hs e env he => step_keeps_outer h h2 op hs e env he, ?_⟩
  intro e hlt
  refine ⟨fun o henc heq => ?_, ?_⟩
  · have := Enclosing_lt h wf e o henc
    omega
  · obtain ⟨chain, hc, hlen⟩ := IsChain_exists h wf e hlt
    refine ⟨chain, hc, by omega, IsChain_last h e chain hc, ?_⟩
    intro name
    exact ⟨_, GetAux_chain h name e chain hc, Get_eq_lookupChain h wf name e chain hc⟩

/-- Witness of C14: the heap of three scopes left by the sample session. -/
theorem scope_chain_finite_witness :
    ∃ h, run [] sampleOps = some h ∧ h.length = 3 ∧
    (∀ (op : Op) (h2 : Heap), step h op = some h2 →
      ∀ (e : Nat) (env : Environment), h[e]? = some env →
        ∃ env2, h2[e]? = some env2 ∧ env2.outer = env.outer) ∧
    (∀ e, e < h.length →
      (∀ o, Enclosing h e o → o ≠ e) ∧
      ∃ chain, IsChain h e chain ∧ chain.length ≤ h.length ∧
        (∃ last, chain.getLast? = some last ∧ last.outer = none) ∧
        ∀ name, ∃ res, GetAux chain.length h e name = some res ∧
          Get h e name = some res) :=
  ⟨_, rfl, rfl, scope_chain_finite sampleOps _ rfl⟩

/-! ## `Upsert` against `Set` and `Update`, and the reading of their result -/

/-- C15: `Upsert` is exactly declare-or-mutate. On a live scope `e` one of two
cases holds, and they exclude each other. Either `name` is not bound locally:
then `Set(name, val)` executes the write and yields the heap and the object
that `Upsert(name, val)` yields, while `Update(name, val)` builds its Error and
leaves the heap as it is. Or `name` is bound locally: then `Update` executes
the write and agrees with `Upsert`, while `Set` builds its Error and leaves the
heap as it is. In both cases the result of `Upsert` is `val` with `name` bound
to `val` in `e`. -/
theorem Upsert_declare_or_mutate (h : Heap) (e : Nat) (name : String) (val : Object)
    (env : Environment) (he : h[e]? = some env) :
    (∃ h2, Upsert h e name val = some (h2, val) ∧ Get h2 e name = some (val, true)) ∧
    ((env.store name = none ∧ Set h e name val = Upsert h e name val ∧
        Update h e name val = some (h, Object.Error (name ++ " is not defined"))) ∨
      ((∃ old, env.store name = some old) ∧ Update h e name val = Upsert h e name val ∧
        Set h e name val
          = some (h, Object.Error ("Identifier '" ++ name ++ "' has already been declared")))) ∧
    ¬ (env.store name = none ∧ ∃ old, env.store name = some old) := by
  refine ⟨⟨_, Upsert_eq h e name val env he, Get_assign h e name val env he⟩, ?_, ?_⟩
  · cases hs : env.store name with
    | none =>
      exact Or.inl ⟨rfl, by rw [Set_unbound h e name val env he hs, Upsert_eq h e name val env he],
        Update_unbound h e name val env he hs⟩
    | some old =>
      exact Or.inr ⟨⟨old, rfl⟩,
        by rw [Update_bound h e name val old env he hs, Upsert_eq h e name val env he],
        Set_bound h e name val old env he hs⟩
  · rintro ⟨hnone, old, hsome⟩
    rw [hnone] at hsome
    cases hsome

/-- Witness of C15: `x`, bound in the root of the sample heap, and `z`, not
bound there. -/
theorem Upsert_declare_or_mutate_witness :
    (Update sampleHeap 0 "x" Object.Null = Upsert sampleHeap 0 "x" Object.Null ∧
      Set sampleHeap 0 "x" Object.Null
        = some (sampleHeap, Object.Error "Identifier 'x' has already been declared")) ∧
    (Set sampleHeap 0 "z" Object.Null = Upsert sampleHeap 0 "z" Object.Null ∧
      Update sampleHeap 0 "z" Object.Null
        = some (sampleHeap, Object.Error "z is not defined")) := by
  refine ⟨?_, ?_⟩
  · rcases (Upsert_declare_or_mutate sampleHeap 0 "x" Object.Null sampleRoot rfl).2.1 with
      hc | hc
    · exact absurd hc.1 (by decide)
    · exact hc.2
  · rcases (Upsert_declare_or_mutate sampleHeap 0 "z" Object.Null sampleRoot rfl).2.1 with
      hc | hc
    · exact hc.2
    · obtain ⟨⟨old, hold⟩, _⟩ := hc
      have hz : sampleRoot.store "z" = none := rfl
      rw [hz] at hold
      cases hold

/-- C16: the result of `Set` and `Update` identifies failure only for values
that are not Error objects. On a live scope `e`: when `val` is not an Error
object, `Set(name, val)` returns an Error object exactly when `name` is bound
locally, and `Update(name, val)` returns one exactly when `name` is not bound
locally. When `val` is an Error object, `Set` on a locally unbound name, and
`Update` on a locally bound one, store `val` and return it: the object returned
is an Error although the binding was made. -/
theorem result_identifies_failure (h : Heap) (e : Nat) (name : String) (val : Object)
    (env : Environment) (he : h[e]? = some env) :
    (val.isError = false →
      (∃ h2 r, Set h e name val = some (h2, r) ∧
        (r.isError = true ↔ ∃ old, env.store name = some old)) ∧
      (∃ h2 r, Update h e name val = some (h2, r) ∧
        (r.isError = true ↔ env.store name = none))) ∧
    (val.isError = true →
      (env.store name = none →
        ∃ h2, Set h e name val = some (h2, val) ∧ Get h2 e name = some (val, true)) ∧
      (∀ old, env.store name = some old →
        ∃ h2, Update h e name val = some (h2, val) ∧ Get h2 e name = some (val, true))) := by
  constructor
  · intro hval
    cases hs : env.store name with
    | none =>
      exact ⟨⟨_, _, Set_unbound h e name val env he hs, by simp [hval]⟩,
        ⟨_, _, Update_unbound h e name val env he hs, by simp [Object.isError]⟩⟩
    | some old =>
      exact ⟨⟨_, _, Set_bound h e name val old env he hs, by simp [Object.isError]⟩,
        ⟨_, _, Update_bound h e name val old env he hs, by simp [hval]⟩⟩
  · intro _
    exact ⟨fun hs => ⟨_, Set_unbound h e name val env he hs, Get_assign h e name val env he⟩,
      fun old hs => ⟨_, Update_bound h e name val old env he hs,
        Get_assign h e name val env he⟩⟩

/-- Witness of C16 on the root of the sample heap: an Integer for the first
part, and an Error object stored by `Set` under `z` and by `Update` under `x`
for the second. -/
theorem result_identifies_failure_witness :
    ((∃ h2 r, Set sampleHeap 0 "x" (Object.Integer 4) = some (h2, r) ∧
        (r.isError = true ↔ ∃ old, sampleRoot.store "x" = some old)) ∧
      (∃ h2 r, Update sampleHeap 0 "x" (Object.Integer 4) = some (h2, r) ∧
        (r.isError = true ↔ sampleRoot.store "x" = none))) ∧
    (∃ h2, Set sampleHeap 0 "z" (Object.Error "boom") = some (h2, Object.Error "boom") ∧
      Get h2 0 "z" = some (Object.Error "boom", true)) ∧
    (∃ h2, Update sampleHeap 0 "x" (Object.Error "boom") = some (h2, Object.Error "boom") ∧
      Get h2 0 "x" = some (Object.Error "boom", true)) :=
  ⟨(result_identifies_failure sampleHeap 0 "x" (Object.Integer 4) sampleRoot rfl).1 rfl,
    ((result_identifies_failure sampleHeap 0 "z" (Object.Error "boom") sampleRoot rfl).2 rfl).1
      rfl,
    ((result_identifies_failure sampleHeap 0 "x" (Object.Error "boom") sampleRoot rfl).2 rfl).2
      (Object.Integer 1) rfl⟩

end Monkey
